import Mathlib

/-!
Verification of the aging priority thread pool

A shallow embedding of `src/ThreadPools/AgingPriority.cpp` (and its near-identical
twin `src/aging_priority_queue_thread_pool.cpp`): an `AgingPriorityPool` whose ready
queue is a `std::vector<AgedTask>` managed as a binary max-heap via
`std::push_heap` / `std::pop_heap` / `std::make_heap`, with a background monitor
that periodically boosts the `current_priority` of waiting tasks.

Modelling conventions:
* the heap store `task_heap` is a `List AgedTask` (the `std::vector`);
* `std::push_heap`, `std::pop_heap` and `std::make_heap` are embedded as the
  classic array-heap algorithms they implement (`siftUp`, root/last swap followed
  by `siftDown`, and Floyd's bottom-up heapify);
* timestamps are seconds (`Nat`), so `duration_cast<seconds>(now - arrival).count()`
  becomes truncated subtraction `now - arrival_time` (the C++ value is never
  negative since `arrival_time` was read from the same clock earlier);
* the payload `std::function<void()> func` is modelled by a `Bool` recording
  whether the callable is non-empty (`if (activeTask.func)` in the worker);
* executed payloads are recorded in a ghost log `executed` (list of task names),
  so "a payload ran" is observable in the model.
-/

/-- Source `struct AgedTask`: a task whose priority can increase over
time.  `func` models whether the `std::function` payload is non-empty. -/
structure AgedTask where
  original_priority : Int
  current_priority : Int
  arrival_time : Nat
  func : Bool
  task_name : String
  deriving DecidableEq, Repr, Inhabited

/-- Index of the parent of heap slot `i` in the array layout used by the
`std::*_heap` algorithms. -/
def parent (i : Nat) : Nat := (i - 1) / 2

/-- Total read of heap slot `i` (out-of-range reads return the default record;
all uses in the algorithms are in range). -/
def getT (l : List AgedTask) (i : Nat) : AgedTask := l.getD i default

/-- Exchange the records at slots `i` and `j` (`std::swap` on vector elements). -/
def swapL (l : List AgedTask) (i j : Nat) : List AgedTask :=
  (l.set i (getT l j)).set j (getT l i)

/-- Source `AgedTask::operator<`: the heap comparator orders tasks by `current_priority`. -/
def AgedTask.lt (a b : AgedTask) : Prop := a.current_priority < b.current_priority

instance (a b : AgedTask) : Decidable (a.lt b) := by
  unfold AgedTask.lt; infer_instance

/-- Boolean test for ancestry in the array-heap tree: `i` is an ancestor of `j`
under `parent`, or `i = j`. -/
def inSubtreeB (i j : Nat) : Bool :=
  if i = j then true
  else if 0 < j then inSubtreeB i (parent j)
  else false
termination_by j
decreasing_by unfold parent; omega

/-- Predicate `inSubtree i j` holds when array-heap slot `j` lies in the subtree rooted at
slot `i`. -/
def inSubtree (i j : Nat) : Prop := inSubtreeB i j = true

/-- Max-heap property over `current_priority` restricted to the first `n` slots:
every non-root slot holds a task whose priority is at most its parent's. -/
def IsHeapRange (l : List AgedTask) (n : Nat) : Prop :=
  ∀ k, k < n → 0 < k →
    (getT l k).current_priority ≤ (getT l (parent k)).current_priority

/-- Max-heap invariant of the whole store (the spec's heap invariant). -/
def IsHeap (l : List AgedTask) : Prop := IsHeapRange l l.length

instance (l : List AgedTask) (n : Nat) : Decidable (IsHeapRange l n) := by
  unfold IsHeapRange; infer_instance

instance (l : List AgedTask) : Decidable (IsHeap l) := by
  unfold IsHeap; infer_instance

/-- Heap property restricted to the subtree rooted at slot `r` within the first
`n` slots. -/
def SubtreeHeap (l : List AgedTask) (n r : Nat) : Prop :=
  ∀ k, k < n → inSubtree r k → k ≠ r →
    (getT l k).current_priority ≤ (getT l (parent k)).current_priority

/-- Index of the larger child of slot `i` (assuming the left child `2*i+1`
exists below `n`), as selected by the standard sift-down step. -/
def maxChild (l : List AgedTask) (i n : Nat) : Nat :=
  if 2 * i + 2 < n ∧
      (getT l (2 * i + 1)).current_priority < (getT l (2 * i + 2)).current_priority
  then 2 * i + 2 else 2 * i + 1

/-- Sift the record at slot `i` down within the first `n` slots: the downward
restoration step used by `std::pop_heap` and `std::make_heap`. -/
def siftDown (l : List AgedTask) (i n : Nat) : List AgedTask :=
  if h : 2 * i + 1 < n then
    if (getT l i).current_priority < (getT l (maxChild l i n)).current_priority then
      siftDown (swapL l i (maxChild l i n)) (maxChild l i n) n
    else l
  else l
termination_by n - i
decreasing_by
  have h1 : i < maxChild l i n := by unfold maxChild; split <;> omega
  have h2 : maxChild l i n < n := by
    unfold maxChild
    split
    · rename_i hc
      exact hc.1
    · exact h
  omega

/-- Sift the record at slot `i` up towards the root: the restoration step
performed by `std::push_heap` after `push_back`. -/
def siftUp (l : List AgedTask) (i : Nat) : List AgedTask :=
  if i = 0 then l
  else if (getT l (parent i)).current_priority < (getT l i).current_priority then
    siftUp (swapL l (parent i) i) (parent i)
  else l
termination_by i
decreasing_by unfold parent; omega

/-- Embedding of `std::push_heap`: after `push_back`, sift the last element up. -/
def pushHeap (l : List AgedTask) : List AgedTask := siftUp l (l.length - 1)

/-- Embedding of `std::pop_heap`: swap the root and the last slot, then sift the new root
down over the prefix that excludes the last slot (which now holds the maximum). -/
def popHeap (l : List AgedTask) : List AgedTask :=
  if l.length ≤ 1 then l
  else siftDown (swapL l 0 (l.length - 1)) 0 (l.length - 1)

/-- The extraction performed by `workerLoop` under the lock: `pop_heap`, read
`back()`, `pop_back()`; yields the extracted task and the remaining store. -/
def extractMax (l : List AgedTask) : AgedTask × List AgedTask :=
  (getT (popHeap l) (l.length - 1), (popHeap l).dropLast)

/-- The descending loop of `std::make_heap`: sift down slots `i-1, …, 1, 0`. -/
def makeHeapAux (n : Nat) : Nat → List AgedTask → List AgedTask
  | 0, l => l
  | i + 1, l => makeHeapAux n i (siftDown l i n)

/-- Embedding of `std::make_heap`: rebuild the max-heap bottom-up (Floyd's construction). -/
def makeHeap (l : List AgedTask) : List AgedTask :=
  makeHeapAux l.length (l.length / 2) l

/-- The aging bonus of `applyAging`:
`int age_bonus = (static_cast<int>(wait_duration) / 2) * 20;` — priority is
boosted by 20 for every full 2 seconds of waiting (integer division truncates,
i.e. floor on the non-negative durations that occur). -/
def ageBonus (elapsed : Nat) : Nat := elapsed / 2 * 20

/-- The loop body of `AgingPriorityPool::applyAging` for one task at time
`now` (seconds): if the bonus is positive and `original_priority + bonus`
exceeds `current_priority`, the task is relabelled (this is the `needs_reheap`
= "dirty" case); otherwise it is left untouched. -/
def ageTask (now : Nat) (t : AgedTask) : AgedTask :=
  if 0 < ageBonus (now - t.arrival_time) then
    if t.current_priority < t.original_priority + (ageBonus (now - t.arrival_time) : Int) then
      { t with current_priority := t.original_priority + (ageBonus (now - t.arrival_time) : Int) }
    else t
  else t

/-- Source `AgingPriorityPool::applyAging`: relabel every resident task; if any task
changed (`needs_reheap`), rebuild the heap with `std::make_heap`. -/
def applyAging (now : Nat) (l : List AgedTask) : List AgedTask :=
  if l.any (fun t => decide (ageTask now t ≠ t)) then makeHeap (l.map (ageTask now))
  else l.map (ageTask now)

/-- The per-task aging rule in the words of the specification: with
`elapsed = now - arrival_time` and
`bonus = floor(elapsed / boost_interval) * boost_amount` (source constants
`boost_interval = 2 s`, `boost_amount = 20`, i.e. `ageBonus`), if
`original_priority + bonus > current_priority` then `current_priority`
becomes `original_priority + bonus` (the task is "dirty"), else unchanged. -/
def specAgeTask (now : Nat) (t : AgedTask) : AgedTask :=
  if t.original_priority + (ageBonus (now - t.arrival_time) : Int) > t.current_priority then
    { t with current_priority := t.original_priority + (ageBonus (now - t.arrival_time) : Int) }
  else t

/-- The state of `AgingPriorityPool` acted on by the heap algorithms: the
`task_heap` vector and the `stop` flag, extended with a ghost log `executed`
recording (in order) the names of tasks whose payload was invoked by a worker. -/
structure AgingPriorityPool where
  task_heap : List AgedTask
  stop : Bool
  executed : List String
  deriving DecidableEq, Repr

/-- The constructor `AgingPriorityPool(size_t threads)`: empty heap,
`stop = false`, and exactly `threads` worker threads spawned (second
component); the value of `threads` is never validated. -/
def AgingPriorityPool.create (threads : Nat) : AgingPriorityPool × Nat :=
  ({ task_heap := [], stop := false, executed := [] }, threads)

/-- Source `AgingPriorityPool::enqueue`: build the record with
`current_priority = original_priority = priority` and `arrival_time = now`,
`push_back` it and `push_heap`; the `stop` flag is never consulted. -/
def AgingPriorityPool.enqueue (s : AgingPriorityPool) (priority : Int) (name : String)
    (f : Bool) (now : Nat) : AgingPriorityPool :=
  { s with task_heap := pushHeap (s.task_heap ++
      [{ original_priority := priority, current_priority := priority,
         arrival_time := now, func := f, task_name := name }]) }

/-- One observable outcome of an iteration of `workerLoop`. -/
inductive WorkerOutcome where
  | blocked
  | exited
  | popped (t : AgedTask) (s : AgingPriorityPool)
  deriving DecidableEq, Repr

/-- One iteration of `AgingPriorityPool::workerLoop`: block while the store is
empty and `stop` is unset; return once `stop` is set and the store is empty;
otherwise `pop_heap` / `back()` / `pop_back` under the lock, then invoke the
payload outside the lock if and only if the callable is non-empty. -/
def AgingPriorityPool.workerStep (s : AgingPriorityPool) : WorkerOutcome :=
  if !s.stop && s.task_heap.isEmpty then .blocked
  else if s.stop && s.task_heap.isEmpty then .exited
  else
    .popped (extractMax s.task_heap).1
      { s with task_heap := (extractMax s.task_heap).2,
               executed :=
                 if (extractMax s.task_heap).1.func then
                   s.executed ++ [(extractMax s.task_heap).1.task_name]
                 else s.executed }

/-- Iterate `workerLoop` until the worker returns, for at most `fuel`
iterations; the boolean records whether the worker exited. -/
def AgingPriorityPool.runWorker (s : AgingPriorityPool) : Nat → AgingPriorityPool × Bool
  | 0 => (s, false)
  | fuel + 1 =>
    match s.workerStep with
    | .blocked => (s, false)
    | .exited => (s, true)
    | .popped _ s' => AgingPriorityPool.runWorker s' fuel

/-- Events emitted by `AgingPriorityPool::monitorLoop`. -/
inductive MEvent where
  | sleep
  | age
  | notifyAll
  deriving DecidableEq, Repr

/-- Source `AgingPriorityPool::monitorLoop`, abstracted over the successive values
the monitor reads from `stop` at the top of its `while (!stop)` loop: on each
observation of `false` it sleeps 1000 ms, runs `applyAging` under the lock and
wakes all workers; at the first observation of `true` it exits at once.  An
exhausted observation list leaves the monitor still running. -/
def monitorRun : List Bool → List MEvent
  | [] => []
  | stopObserved :: rest =>
    if stopObserved then []
    else MEvent.sleep :: MEvent.age :: MEvent.notifyAll :: monitorRun rest

/-- Extract `k` tasks in a row (as the single worker of the demo would),
collecting the `current_priority` of each extracted task. -/
def extractSeq : List AgedTask → Nat → List Int
  | _, 0 => []
  | l, k + 1 =>
    if l.isEmpty then []
    else (extractMax l).1.current_priority :: extractSeq (extractMax l).2 k

/-- The store-mutating operations of the pool: `enqueue`'s insert, the
worker's extraction, and the monitor's aging pass. -/
inductive HeapOp where
  | insert (t : AgedTask)
  | extract
  | reheap (now : Nat)

/-- Apply one operation to the heap store exactly as the source does under the
lock (workers pop only after the non-empty check, so `extract` leaves an empty
store unchanged). -/
def applyOp (l : List AgedTask) : HeapOp → List AgedTask
  | .insert t => pushHeap (l ++ [t])
  | .extract => if l.isEmpty then l else (extractMax l).2
  | .reheap now => applyAging now l

/-- Run a sequence of store operations starting from the empty store. -/
def runOps (ops : List HeapOp) : List AgedTask := ops.foldl applyOp []

/-- Body of one `monitorLoop` tick under the lock: `applyAging` on the store.
The monitor touches neither the worker log nor the `stop` flag. -/
def AgingPriorityPool.monitorTick (s : AgingPriorityPool) (now : Nat) : AgingPriorityPool :=
  { s with task_heap := applyAging now s.task_heap }

/-- Pool of the priority-extraction scenario: a single worker and four tasks
submitted with priorities 1, 1, 10, 10 (in that order). -/
def demoPool : AgingPriorityPool :=
  (((((AgingPriorityPool.create 1).1.enqueue 1 "LOW_1" true 0).enqueue 1 "LOW_2" true 0).enqueue
    10 "HIGH_1" true 0).enqueue 10 "HIGH_2" true 0)

/-- Concrete two-task heap used to instantiate hypotheses of the general
extraction theorem. -/
def demoHeap : List AgedTask :=
  [{ original_priority := 10, current_priority := 10, arrival_time := 0, func := true,
     task_name := "H" },
   { original_priority := 1, current_priority := 1, arrival_time := 0, func := true,
     task_name := "L" }]

/-- Pool state used to instantiate the aging-pass and worker theorems. -/
def demoPoolState : AgingPriorityPool :=
  { task_heap := demoHeap, stop := false, executed := [] }

/-- Task record of the starvation demo: submitted with priority 20 at time 0
(`pool.enqueue(20, "STARVED_REWARD_TASK", …)`). -/
def starvedRewardTask : AgedTask :=
  { original_priority := 20, current_priority := 20, arrival_time := 0, func := true,
    task_name := "STARVED_REWARD_TASK" }

/-- State of the same task after the monitor's aging pass at 2 s:
`current_priority = 40` (reachable, see `C4_counterexample`). -/
def agedRewardTask : AgedTask :=
  { original_priority := 20, current_priority := 40, arrival_time := 0, func := true,
    task_name := "STARVED_REWARD_TASK" }

/-- Task still resident in the heap when shutdown is initiated. -/
def residentTask : AgedTask :=
  { original_priority := 5, current_priority := 5, arrival_time := 0, func := true,
    task_name := "RESIDENT" }

/-- Pool state at shutdown with one resident task: `stop` already set, one
priority-5 task still in the heap. -/
def stoppedPoolOneTask : AgingPriorityPool :=
  { task_heap := [residentTask], stop := true, executed := [] }

/-- Empty pool state after shutdown (`stop` already set). -/
def stoppedEmptyPool : AgingPriorityPool :=
  { task_heap := [], stop := true, executed := [] }

/-- Task record produced by a submission at time 9 with priority 50. -/
def lateTask : AgedTask :=
  { original_priority := 50, current_priority := 50, arrival_time := 9, func := true,
    task_name := "LATE_TASK" }

/-- Record that `enqueue(priority, name, f)` builds at time `now`:
`current_priority = original_priority = priority`, fresh arrival stamp. -/
def mkAgedTask (p : Int) (nm : String) (f : Bool) (now : Nat) : AgedTask :=
  { original_priority := p, current_priority := p, arrival_time := now, func := f,
    task_name := nm }

/-- Task whose `std::function` payload is empty (`func = false`). -/
def nullPayloadTask : AgedTask :=
  { original_priority := 7, current_priority := 7, arrival_time := 0, func := false,
    task_name := "NULL_PAYLOAD" }

/-- Running pool whose store holds only the empty-payload task. -/
def nullPayloadPool : AgingPriorityPool :=
  { task_heap := [nullPayloadTask], stop := false, executed := [] }


theorem getT_eq_getElem? (l : List AgedTask) (i : Nat) : getT l i = (l[i]?).getD default := by
  simp [getT, List.getD_eq_getElem?_getD]

theorem getT_of_lt (l : List AgedTask) (i : Nat) (h : i < l.length) : getT l i = l[i] := by
  simp [getT_eq_getElem?, List.getElem?_eq_getElem h]

theorem getT_mem (l : List AgedTask) (i : Nat) (h : i < l.length) : getT l i ∈ l := by
  rw [getT_of_lt l i h]; exact List.getElem_mem h

theorem getT_append_left (l l' : List AgedTask) (i : Nat) (h : i < l.length) :
    getT (l ++ l') i = getT l i := by
  rw [getT_eq_getElem?, getT_eq_getElem?, List.getElem?_append, if_pos h]

theorem getT_append_right (l : List AgedTask) (t : AgedTask) :
    getT (l ++ [t]) l.length = t := by
  rw [getT_eq_getElem?]
  have : (l ++ [t])[l.length]? = some t := by
    rw [List.getElem?_append_right (Nat.le_refl _)]
    simp
  rw [this]; rfl

theorem getT_dropLast (l : List AgedTask) (i : Nat) (h : i + 1 < l.length) :
    getT l.dropLast i = getT l i := by
  rw [getT_eq_getElem?, getT_eq_getElem?]
  have h1 : i < l.dropLast.length := by simp [List.length_dropLast]; omega
  have h2 : i < l.length := by omega
  rw [List.getElem?_eq_getElem h1, List.getElem?_eq_getElem h2]
  simp [List.getElem_dropLast]

@[simp] theorem swapL_length (l : List AgedTask) (i j : Nat) :
    (swapL l i j).length = l.length := by
  simp [swapL]

theorem getT_swapL_left (l : List AgedTask) {i j : Nat} (hi : i < l.length)
    (hij : i ≠ j) : getT (swapL l i j) i = getT l j := by
  rw [getT_eq_getElem?, swapL, List.getElem?_set_ne (Ne.symm hij),
    List.getElem?_set_eq_of_lt _ hi]
  rfl

theorem getT_swapL_right (l : List AgedTask) {i j : Nat} (hj : j < l.length) :
    getT (swapL l i j) j = getT l i := by
  rw [getT_eq_getElem?, swapL, List.getElem?_set_eq_of_lt]
  · rfl
  · simpa using hj

theorem getT_swapL_other (l : List AgedTask) {i j k : Nat} (hki : k ≠ i) (hkj : k ≠ j) :
    getT (swapL l i j) k = getT l k := by
  rw [getT_eq_getElem?, swapL, List.getElem?_set_ne (Ne.symm hkj),
    List.getElem?_set_ne (Ne.symm hki), getT_eq_getElem?]

theorem cons_set_perm (t : List AgedTask) (k : Nat) (x : AgedTask) (h : k < t.length) :
    (t[k] :: t.set k x).Perm (x :: t) := by
  induction t generalizing k with
  | nil => simp at h
  | cons y s ih =>
    cases k with
    | zero => simpa using List.Perm.swap x y s
    | succ k =>
      have hk : k < s.length := by simpa using h
      have he : ((y :: s)[k + 1] :: (y :: s).set (k + 1) x) = s[k] :: y :: s.set k x := by simp
      rw [he]
      have p1 : (s[k] :: y :: s.set k x).Perm (y :: s[k] :: s.set k x) := List.Perm.swap _ _ _
      have p2 : (y :: s[k] :: s.set k x).Perm (y :: x :: s) := List.Perm.cons y (ih k hk)
      have p3 : (y :: x :: s).Perm (x :: y :: s) := List.Perm.swap _ _ _
      exact p1.trans (p2.trans p3)

theorem swapL_perm (l : List AgedTask) {i j : Nat} (hij : i < j) (hj : j < l.length) :
    (swapL l i j).Perm l := by
  induction l generalizing i j with
  | nil => simp at hj
  | cons x t ih =>
    cases i with
    | zero =>
      obtain ⟨k, rfl⟩ : ∃ k, j = k + 1 := ⟨j - 1, by omega⟩
      have hk : k < t.length := by simpa using hj
      have hget : getT (x :: t) (k + 1) = t[k] := by
        rw [getT_of_lt _ _ (by simpa using hj)]; simp
      have hget0 : getT (x :: t) 0 = x := by rw [getT_of_lt _ _ (by simp)]; simp
      have he : swapL (x :: t) 0 (k + 1) = t[k] :: t.set k x := by
        simp [swapL, hget, hget0]
      rw [he]
      exact cons_set_perm t k x hk
    | succ i =>
      obtain ⟨k, rfl⟩ : ∃ k, j = k + 1 := ⟨j - 1, by omega⟩
      have hk : k < t.length := by simpa using hj
      have hi : i < k := by omega
      have hgi : getT (x :: t) (i + 1) = getT t i := by
        rw [getT_eq_getElem?, getT_eq_getElem?]; simp
      have hgj : getT (x :: t) (k + 1) = getT t k := by
        rw [getT_eq_getElem?, getT_eq_getElem?]; simp
      have : swapL (x :: t) (i + 1) (k + 1) = x :: swapL t i k := by
        simp [swapL, hgi, hgj, List.set_cons_succ]
      rw [this]
      exact List.Perm.cons x (ih hi hk)

theorem inSubtree_iff (i j : Nat) :
    inSubtree i j ↔ (i = j ∨ (0 < j ∧ inSubtree i (parent j))) := by
  unfold inSubtree
  rw [inSubtreeB]
  by_cases h1 : i = j
  · simp [h1]
  · by_cases h2 : 0 < j
    · simp [h1, h2]
    · simp [h1, h2]

theorem inSubtree_refl (i : Nat) : inSubtree i i :=
  (inSubtree_iff i i).mpr (Or.inl rfl)

theorem inSubtree_le : ∀ j i : Nat, inSubtree i j → i ≤ j := by
  intro j
  induction j using Nat.strong_induction_on with
  | _ j ih =>
    intro i h
    rcases (inSubtree_iff i j).mp h with rfl | ⟨hj, h⟩
    · exact Nat.le_refl _
    · have hp : parent j < j := by unfold parent; omega
      have := ih (parent j) hp i h
      omega

theorem inSubtree_zero : ∀ j : Nat, inSubtree 0 j := by
  intro j
  induction j using Nat.strong_induction_on with
  | _ j ih =>
    rcases Nat.eq_zero_or_pos j with rfl | hj
    · exact inSubtree_refl 0
    · exact (inSubtree_iff 0 j).mpr
        (Or.inr ⟨hj, ih (parent j) (by unfold parent; omega)⟩)

theorem inSubtree_trans : ∀ k j i : Nat, inSubtree i j → inSubtree j k → inSubtree i k := by
  intro k
  induction k using Nat.strong_induction_on with
  | _ k ih =>
    intro j i h1 h2
    rcases (inSubtree_iff j k).mp h2 with rfl | ⟨hk, h2⟩
    · exact h1
    · exact (inSubtree_iff i k).mpr
        (Or.inr ⟨hk, ih (parent k) (by unfold parent; omega) j i h1 h2⟩)

theorem inSubtree_total : ∀ k i j : Nat, inSubtree i k → inSubtree j k →
    inSubtree i j ∨ inSubtree j i := by
  intro k
  induction k using Nat.strong_induction_on with
  | _ k ih =>
    intro i j h1 h2
    rcases (inSubtree_iff i k).mp h1 with rfl | ⟨hk, h1'⟩
    · exact Or.inr h2
    · rcases (inSubtree_iff j k).mp h2 with rfl | ⟨_, h2'⟩
      · exact Or.inl h1
      · exact ih (parent k) (by unfold parent; omega) i j h1' h2'

theorem inSubtree_child {i c : Nat} (hp : parent c = i) (hc : 0 < c) : inSubtree i c :=
  (inSubtree_iff i c).mpr (Or.inr ⟨hc, hp ▸ inSubtree_refl i⟩)

theorem inSubtree_step {m k : Nat} (h : inSubtree m k) (hk : k ≠ m) :
    0 < k ∧ inSubtree m (parent k) := by
  rcases (inSubtree_iff m k).mp h with rfl | h'
  · exact absurd rfl (Ne.symm hk)
  · exact h'

theorem child_cases {k : Nat} (hk : 0 < k) : k = 2 * parent k + 1 ∨ k = 2 * parent k + 2 := by
  unfold parent; omega

theorem parent_left (i : Nat) : parent (2 * i + 1) = i := by unfold parent; omega

theorem parent_right (i : Nat) : parent (2 * i + 2) = i := by unfold parent; omega

theorem inSubtree_ge {j k : Nat} (h : inSubtree j k) (hk : k ≠ j) : 2 * j + 1 ≤ k := by
  induction k using Nat.strong_induction_on with
  | _ k ih =>
    obtain ⟨hk0, hp⟩ := inSubtree_step h hk
    by_cases hpj : parent k = j
    · rcases child_cases hk0 with h1 | h1 <;> omega
    · have := ih (parent k) (by unfold parent; omega) hp hpj
      have : parent k < k := by unfold parent; omega
      omega

theorem SubtreeHeap.sub {l : List AgedTask} {n r j : Nat} (h : SubtreeHeap l n r)
    (hj : inSubtree r j) : SubtreeHeap l n j := by
  intro k hk hjk hne
  have hrk : inSubtree r k := inSubtree_trans k j r hj hjk
  have hkr : k ≠ r := by
    rintro rfl
    have h1 : j ≤ k := inSubtree_le k j hjk
    have h2 : k ≤ j := inSubtree_le j k hj
    exact hne (by omega)
  exact h k hk hrk hkr

theorem subtreeHeap_zero_iff (l : List AgedTask) (n : Nat) :
    SubtreeHeap l n 0 ↔ IsHeapRange l n := by
  constructor
  · intro h k hk h0
    exact h k hk (inSubtree_zero k) (by omega)
  · intro h k hk _ hne
    exact h k hk (by omega)

theorem SubtreeHeap.root_dominates {l : List AgedTask} {n r : Nat} (h : SubtreeHeap l n r) :
    ∀ k, k < n → inSubtree r k →
      (getT l k).current_priority ≤ (getT l r).current_priority := by
  intro k
  induction k using Nat.strong_induction_on with
  | _ k ih =>
    intro hk hrk
    by_cases hkr : k = r
    · subst hkr; exact le_refl _
    · obtain ⟨hk0, hp⟩ := inSubtree_step hrk hkr
      have e1 := h k hk hrk hkr
      have hpk : parent k < k := by unfold parent; omega
      exact le_trans e1 (ih (parent k) hpk (by omega) hp)

theorem lt_maxChild (l : List AgedTask) (i n : Nat) : i < maxChild l i n := by
  unfold maxChild; split <;> omega

theorem left_le_maxChild (l : List AgedTask) (i n : Nat) : 2 * i + 1 ≤ maxChild l i n := by
  unfold maxChild; split <;> omega

theorem maxChild_lt (l : List AgedTask) (i n : Nat) (h : 2 * i + 1 < n) :
    maxChild l i n < n := by
  unfold maxChild; split
  · omega
  · exact h

theorem parent_maxChild (l : List AgedTask) (i n : Nat) : parent (maxChild l i n) = i := by
  unfold maxChild; split
  · exact parent_right i
  · exact parent_left i

theorem maxChild_mem (l : List AgedTask) (i n : Nat) :
    maxChild l i n = 2 * i + 1 ∨ maxChild l i n = 2 * i + 2 := by
  unfold maxChild; split
  · exact Or.inr rfl
  · exact Or.inl rfl

theorem maxChild_ge_left (l : List AgedTask) (i n : Nat) :
    (getT l (2 * i + 1)).current_priority ≤ (getT l (maxChild l i n)).current_priority := by
  unfold maxChild; split
  · rename_i h; exact le_of_lt h.2
  · exact le_refl _

theorem maxChild_ge_right (l : List AgedTask) (i n : Nat) (h : 2 * i + 2 < n) :
    (getT l (2 * i + 2)).current_priority ≤ (getT l (maxChild l i n)).current_priority := by
  unfold maxChild; split
  · exact le_refl _
  · rename_i hneg
    have := not_and.mp hneg h
    omega

theorem siftDown_length (l : List AgedTask) (i n : Nat) :
    (siftDown l i n).length = l.length := by
  induction l, i, n using siftDown.induct with
  | case1 l i n h1 h2 ih =>
    rw [siftDown, dif_pos h1, if_pos h2]
    rw [ih]; simp
  | case2 l i n h1 h2 =>
    rw [siftDown, dif_pos h1, if_neg h2]
  | case3 l i n h1 =>
    rw [siftDown, dif_neg h1]

theorem siftDown_frame (l : List AgedTask) (i n : Nat) :
    ∀ k, (¬ inSubtree i k ∨ n ≤ k) → getT (siftDown l i n) k = getT l k := by
  induction l, i, n using siftDown.induct with
  | case1 l i n h1 h2 ih =>
    intro k hk
    rw [siftDown, dif_pos h1, if_pos h2]
    have hmn : maxChild l i n < n := maxChild_lt l i n h1
    have him : i < maxChild l i n := lt_maxChild l i n
    have hin : i < n := by omega
    have hsub_im : inSubtree i (maxChild l i n) :=
      inSubtree_child (parent_maxChild l i n) (by omega)
    have hk' : ¬ inSubtree (maxChild l i n) k ∨ n ≤ k := by
      rcases hk with hk | hk
      · exact Or.inl (fun hc => hk (inSubtree_trans k (maxChild l i n) i hsub_im hc))
      · exact Or.inr hk
    rw [ih k hk']
    have hki : k ≠ i := by
      rcases hk with hk | hk
      · rintro rfl; exact hk (inSubtree_refl k)
      · omega
    have hkm : k ≠ maxChild l i n := by
      rcases hk with hk | hk
      · rintro rfl; exact hk hsub_im
      · omega
    exact getT_swapL_other l hki hkm
  | case2 l i n h1 h2 =>
    intro k _
    rw [siftDown, dif_pos h1, if_neg h2]
  | case3 l i n h1 =>
    intro k _
    rw [siftDown, dif_neg h1]

theorem siftDown_perm (l : List AgedTask) (i n : Nat) (hn : n ≤ l.length) :
    (siftDown l i n).Perm l := by
  induction l, i, n using siftDown.induct with
  | case1 l i n h1 h2 ih =>
    rw [siftDown, dif_pos h1, if_pos h2]
    have him : i < maxChild l i n := lt_maxChild l i n
    have hmn : maxChild l i n < n := maxChild_lt l i n h1
    have p1 := ih (by simpa using hn)
    have p2 := swapL_perm l him (by omega)
    exact p1.trans p2
  | case2 l i n h1 h2 =>
    rw [siftDown, dif_pos h1, if_neg h2]
  | case3 l i n h1 =>
    rw [siftDown, dif_neg h1]

theorem siftDown_bound (l : List AgedTask) (i n : Nat) {B : Int} :
    n ≤ l.length →
    (∀ k, k < n → inSubtree i k → (getT l k).current_priority ≤ B) →
    ∀ k, k < n → inSubtree i k → (getT (siftDown l i n) k).current_priority ≤ B := by
  induction l, i, n using siftDown.induct with
  | case1 l i n h1 h2 ih =>
    intro hn hb k hk hik
    rw [siftDown, dif_pos h1, if_pos h2]
    have hmn : maxChild l i n < n := maxChild_lt l i n h1
    have him : i < maxChild l i n := lt_maxChild l i n
    have hin : i < n := by omega
    have hsub_im : inSubtree i (maxChild l i n) :=
      inSubtree_child (parent_maxChild l i n) (by omega)
    have hb' : ∀ k, k < n → inSubtree (maxChild l i n) k →
        (getT (swapL l i (maxChild l i n)) k).current_priority ≤ B := by
      intro k' hk' hmk'
      have hik' : inSubtree i k' := inSubtree_trans k' (maxChild l i n) i hsub_im hmk'
      by_cases hk'i : k' = i
      · rw [hk'i, getT_swapL_left l (by omega) (by omega)]
        exact hb (maxChild l i n) hmn hsub_im
      · by_cases hk'm : k' = maxChild l i n
        · rw [hk'm, getT_swapL_right l (by omega)]
          exact hb i hin (inSubtree_refl i)
        · rw [getT_swapL_other l hk'i hk'm]
          exact hb k' hk' hik'
    by_cases hmk : inSubtree (maxChild l i n) k
    · exact ih (by simpa using hn) hb' k hk hmk
    · rw [siftDown_frame _ _ _ k (Or.inl hmk)]
      by_cases hki : k = i
      · rw [hki, getT_swapL_left l (by omega) (by omega)]
        exact hb (maxChild l i n) hmn hsub_im
      · have hkm : k ≠ maxChild l i n := fun hc => hmk (hc ▸ inSubtree_refl _)
        rw [getT_swapL_other l hki hkm]
        exact hb k hk hik
  | case2 l i n h1 h2 =>
    intro hn hb k hk hik
    rw [siftDown, dif_pos h1, if_neg h2]
    exact hb k hk hik
  | case3 l i n h1 =>
    intro hn hb k hk hik
    rw [siftDown, dif_neg h1]
    exact hb k hk hik

theorem siftDown_subtreeHeap (l : List AgedTask) (i n : Nat) :
    n ≤ l.length →
    (∀ k, k < n → inSubtree i k → k ≠ i → parent k ≠ i →
      (getT l k).current_priority ≤ (getT l (parent k)).current_priority) →
    SubtreeHeap (siftDown l i n) n i := by
  induction l, i, n using siftDown.induct with
  | case3 l i n h1 =>
    intro hn pre
    rw [siftDown, dif_neg h1]
    intro k hk hik hki
    have := inSubtree_ge hik hki
    omega
  | case2 l i n h1 h2 =>
    intro hn pre
    rw [siftDown, dif_pos h1, if_neg h2]
    intro k hk hik hki
    have hk0 : 0 < k := by
      rcases Nat.eq_zero_or_pos k with rfl | h
      · have := inSubtree_le 0 i hik; omega
      · exact h
    by_cases hpk : parent k = i
    · have hd : (getT l k).current_priority ≤ (getT l (maxChild l i n)).current_priority := by
        have hck := child_cases hk0
        rw [hpk] at hck
        rcases hck with hc | hc
        · rw [hc]; exact maxChild_ge_left l i n
        · rw [hc]; exact maxChild_ge_right l i n (by omega)
      rw [hpk]
      exact le_trans hd (not_lt.mp h2)
    · exact pre k hk hik hki hpk
  | case1 l i n h1 h2 ih =>
    intro hn pre
    rw [siftDown, dif_pos h1, if_pos h2]
    have hmn : maxChild l i n < n := maxChild_lt l i n h1
    have him : i < maxChild l i n := lt_maxChild l i n
    have hin : i < n := by omega
    have hpm : parent (maxChild l i n) = i := parent_maxChild l i n
    have hm0 : 0 < maxChild l i n := by omega
    have hsub_im : inSubtree i (maxChild l i n) := inSubtree_child hpm hm0
    have pre' : ∀ k, k < n → inSubtree (maxChild l i n) k → k ≠ maxChild l i n →
        parent k ≠ maxChild l i n →
        (getT (swapL l i (maxChild l i n)) k).current_priority ≤
          (getT (swapL l i (maxChild l i n)) (parent k)).current_priority := by
      intro k hk hmk hkm hpkm
      have hk_ge : 2 * maxChild l i n + 1 ≤ k := inSubtree_ge hmk hkm
      have hk0 : 0 < k := by omega
      have hpk_sub : inSubtree (maxChild l i n) (parent k) := (inSubtree_step hmk hkm).2
      have hpk_ge : maxChild l i n ≤ parent k := inSubtree_le _ _ hpk_sub
      have e1 : getT (swapL l i (maxChild l i n)) k = getT l k :=
        getT_swapL_other l (by omega) (by omega)
      have e2 : getT (swapL l i (maxChild l i n)) (parent k) = getT l (parent k) :=
        getT_swapL_other l (by omega) (by omega)
      rw [e1, e2]
      have hik : inSubtree i k := inSubtree_trans k (maxChild l i n) i hsub_im hmk
      exact pre k hk hik (by omega) (by omega)
    have SH_rec : SubtreeHeap (siftDown (swapL l i (maxChild l i n)) (maxChild l i n) n) n
        (maxChild l i n) := ih (by simpa using hn) pre'
    have SH_l_m : SubtreeHeap l n (maxChild l i n) := by
      intro k hk hmk hkm
      have hk_ge : 2 * maxChild l i n + 1 ≤ k := inSubtree_ge hmk hkm
      have hpk_sub : inSubtree (maxChild l i n) (parent k) := (inSubtree_step hmk hkm).2
      have hpk_ge : maxChild l i n ≤ parent k := inSubtree_le _ _ hpk_sub
      have hik : inSubtree i k := inSubtree_trans k (maxChild l i n) i hsub_im hmk
      exact pre k hk hik (by omega) (by omega)
    have hbB : ∀ k, k < n → inSubtree (maxChild l i n) k →
        (getT (swapL l i (maxChild l i n)) k).current_priority ≤
          (getT l (maxChild l i n)).current_priority := by
      intro k hk hmk
      by_cases hkm : k = maxChild l i n
      · rw [hkm, getT_swapL_right l (by omega)]
        exact le_of_lt h2
      · have hk_ge : 2 * maxChild l i n + 1 ≤ k := inSubtree_ge hmk hkm
        rw [getT_swapL_other l (by omega) (by omega)]
        exact SH_l_m.root_dominates k hk hmk
    have hbound := siftDown_bound (swapL l i (maxChild l i n)) (maxChild l i n) n
        (by simpa using hn) hbB
    have hi_not_sub : ¬ inSubtree (maxChild l i n) i := fun hc => by
      have := inSubtree_le i (maxChild l i n) hc; omega
    have e_i : getT (siftDown (swapL l i (maxChild l i n)) (maxChild l i n) n) i
        = getT l (maxChild l i n) := by
      rw [siftDown_frame _ _ _ i (Or.inl hi_not_sub),
        getT_swapL_left l (by omega) (by omega)]
    intro k hk hik hki
    have hk0 : 0 < k := by
      rcases Nat.eq_zero_or_pos k with rfl | h
      · have := inSubtree_le 0 i hik; omega
      · exact h
    by_cases hpk : parent k = i
    · rw [hpk, e_i]
      by_cases hkm : k = maxChild l i n
      · rw [hkm]
        exact hbound (maxChild l i n) hmn (inSubtree_refl _)
      · have hknotsub : ¬ inSubtree (maxChild l i n) k := by
          intro hc
          have hge := inSubtree_ge hc hkm
          have hck := child_cases hk0
          rw [hpk] at hck
          rcases maxChild_mem l i n with hm1 | hm1 <;> omega
        rw [siftDown_frame _ _ _ k (Or.inl hknotsub),
          getT_swapL_other l hki hkm]
        have hck := child_cases hk0
        rw [hpk] at hck
        rcases hck with hc | hc
        · rw [hc]; exact maxChild_ge_left l i n
        · rw [hc]; exact maxChild_ge_right l i n (by omega)
    · by_cases hmk : inSubtree (maxChild l i n) k
      · have hkm : k ≠ maxChild l i n := by
          intro hc; rw [hc] at hpk; exact hpk hpm
        exact SH_rec k hk hmk hkm
      · have hpknotsub : ¬ inSubtree (maxChild l i n) (parent k) := by
          intro hc
          exact hmk ((inSubtree_iff _ _).mpr (Or.inr ⟨hk0, hc⟩))
        have hkm : k ≠ maxChild l i n := fun hc => hmk (hc ▸ inSubtree_refl _)
        have hpkm : parent k ≠ maxChild l i n := fun hc => hpknotsub (hc ▸ inSubtree_refl _)
        rw [siftDown_frame _ _ _ k (Or.inl hmk),
          siftDown_frame _ _ _ (parent k) (Or.inl hpknotsub),
          getT_swapL_other l hki hkm,
          getT_swapL_other l hpk hpkm]
        exact pre k hk hik hki hpk

theorem siftUp_length (l : List AgedTask) (i : Nat) :
    (siftUp l i).length = l.length := by
  induction l, i using siftUp.induct with
  | case1 l => rw [siftUp, if_pos rfl]
  | case2 l i h1 h2 ih =>
    rw [siftUp, if_neg h1, if_pos h2, ih]; simp
  | case3 l i h1 h2 =>
    rw [siftUp, if_neg h1, if_neg h2]

theorem siftUp_perm (l : List AgedTask) (i : Nat) (hi : i < l.length) :
    (siftUp l i).Perm l := by
  induction l, i using siftUp.induct with
  | case1 l => rw [siftUp, if_pos rfl]
  | case2 l i h1 h2 ih =>
    rw [siftUp, if_neg h1, if_pos h2]
    have hp : parent i < i := by unfold parent; omega
    have p1 := ih (by simpa using lt_of_lt_of_le hp (le_of_lt hi))
    exact p1.trans (swapL_perm l hp hi)
  | case3 l i h1 h2 =>
    rw [siftUp, if_neg h1, if_neg h2]

theorem siftUp_isHeap (l : List AgedTask) (i : Nat) :
    i < l.length →
    (∀ k, k < l.length → 0 < k → k ≠ i →
      (getT l k).current_priority ≤ (getT l (parent k)).current_priority) →
    (0 < i → ∀ c, c < l.length → parent c = i →
      (getT l c).current_priority ≤ (getT l (parent i)).current_priority) →
    IsHeap (siftUp l i) := by
  induction l, i using siftUp.induct with
  | case1 l =>
    intro _ hyp1 _
    rw [siftUp, if_pos rfl]
    intro k hk hk0
    exact hyp1 k hk hk0 (by omega)
  | case3 l i h1 h2 =>
    intro _ hyp1 _
    rw [siftUp, if_neg h1, if_neg h2]
    intro k hk hk0
    by_cases hki : k = i
    · rw [hki]; exact not_lt.mp h2
    · exact hyp1 k hk hk0 hki
  | case2 l i h1 h2 ih =>
    intro hi hyp1 hyp2
    rw [siftUp, if_neg h1, if_pos h2]
    have hp : parent i < i := by unfold parent; omega
    have hpL : parent i < l.length := by omega
    have e_i : getT (swapL l (parent i) i) i = getT l (parent i) :=
      getT_swapL_right l hi
    have e_p : getT (swapL l (parent i) i) (parent i) = getT l i :=
      getT_swapL_left l hpL (by omega)
    apply ih (by simpa using hpL)
    · -- all slots except `parent i` respect their parent in the swapped list
      intro k hk' hk0 hkp
      have hk : k < l.length := by simpa using hk'
      by_cases hki : k = i
      · rw [hki, e_i]
        have : parent i = parent i := rfl
        rw [show parent i = parent i from rfl] at e_p
        rw [e_p]
        exact le_of_lt h2
      · by_cases hpki : parent k = i
        · have hkgt : 2 * i + 1 ≤ k := by
            have := child_cases hk0
            omega
          have e_k : getT (swapL l (parent i) i) k = getT l k :=
            getT_swapL_other l (by omega) (by omega)
          rw [e_k, hpki, e_i]
          exact hyp2 (by omega) k hk hpki
        · by_cases hpkp : parent k = parent i
          · have e_k : getT (swapL l (parent i) i) k = getT l k :=
              getT_swapL_other l hkp hki
            rw [e_k, hpkp, e_p]
            have := hyp1 k hk hk0 hki
            rw [hpkp] at this
            exact le_trans this (le_of_lt h2)
          · have e_k : getT (swapL l (parent i) i) k = getT l k :=
              getT_swapL_other l hkp hki
            have e_pk : getT (swapL l (parent i) i) (parent k) = getT l (parent k) :=
              getT_swapL_other l hpkp hpki
            rw [e_k, e_pk]
            exact hyp1 k hk hk0 hki
    · -- children of `parent i` are bounded by its parent in the swapped list
      intro hp0 c hc' hpc
      have hc : c < l.length := by simpa using hc'
      have hppL : parent (parent i) < l.length := by
        have : parent (parent i) ≤ parent i := by unfold parent; omega
        omega
      have hpp_ne_p : parent (parent i) ≠ parent i := by
        unfold parent at hp0 ⊢; omega
      have hpp_ne_i : parent (parent i) ≠ i := by
        have : parent (parent i) ≤ parent i := by unfold parent; omega
        omega
      have e_pp : getT (swapL l (parent i) i) (parent (parent i))
          = getT l (parent (parent i)) :=
        getT_swapL_other l hpp_ne_p hpp_ne_i
      rw [e_pp]
      by_cases hci : c = i
      · rw [hci, e_i]
        exact hyp1 (parent i) hpL hp0 (by omega)
      · have hc0 : 0 < c := by
          rcases Nat.eq_zero_or_pos c with rfl | h0
          · exfalso
            have : parent 0 = 0 := by unfold parent; omega
            omega
          · exact h0
        have hcp : c ≠ parent i := by
          rintro rfl
          have h3 : parent (parent i) ≤ parent i := by unfold parent; omega
          omega
        have e_c : getT (swapL l (parent i) i) c = getT l c :=
          getT_swapL_other l hcp hci
        rw [e_c]
        have s1 : (getT l c).current_priority ≤ (getT l (parent c)).current_priority :=
          hyp1 c hc hc0 hci
        rw [hpc] at s1
        have s2 : (getT l (parent i)).current_priority
            ≤ (getT l (parent (parent i))).current_priority :=
          hyp1 (parent i) hpL hp0 (by omega)
        exact le_trans s1 s2

theorem pushHeap_length (l : List AgedTask) : (pushHeap l).length = l.length := by
  unfold pushHeap; exact siftUp_length l _

theorem pushHeap_perm (l : List AgedTask) (h : 0 < l.length) : (pushHeap l).Perm l := by
  unfold pushHeap
  exact siftUp_perm l _ (by omega)

theorem pushHeap_isHeap (l : List AgedTask) (t : AgedTask) (h : IsHeap l) :
    IsHeap (pushHeap (l ++ [t])) := by
  unfold pushHeap
  have hlen : (l ++ [t]).length - 1 = l.length := by simp
  rw [hlen]
  apply siftUp_isHeap (l ++ [t]) l.length (by simp)
  · intro k hk hk0 hki
    have hkl : k < l.length := by simp at hk; omega
    have hpkl : parent k < l.length := by
      have : parent k < k := by unfold parent; omega
      omega
    rw [getT_append_left l [t] k hkl, getT_append_left l [t] (parent k) hpkl]
    exact h k hkl hk0
  · intro h0 c hc hpc
    have hc0 : 0 < c := by
      rcases Nat.eq_zero_or_pos c with rfl | hc0
      · exfalso
        have : parent 0 = 0 := by unfold parent; omega
        omega
      · exact hc0
    have := child_cases hc0
    simp at hc
    omega

theorem popHeap_length (l : List AgedTask) : (popHeap l).length = l.length := by
  unfold popHeap
  split
  · rfl
  · rw [siftDown_length]; simp

theorem popHeap_back (l : List AgedTask) (h : 0 < l.length) :
    getT (popHeap l) (l.length - 1) = getT l 0 := by
  unfold popHeap
  split
  · congr 1; omega
  · rename_i hgt
    rw [siftDown_frame _ _ _ (l.length - 1) (Or.inr (le_refl _))]
    exact getT_swapL_right l (by omega)

theorem popHeap_isHeapRange (l : List AgedTask) (h : IsHeap l) :
    IsHeapRange (popHeap l) (l.length - 1) := by
  unfold popHeap
  split
  · rename_i hle
    intro k hk hk0
    omega
  · rename_i hgt
    rw [← subtreeHeap_zero_iff]
    apply siftDown_subtreeHeap (swapL l 0 (l.length - 1)) 0 (l.length - 1) (by simp)
    intro k hk _ hk0 hpk0
    have hkne : k ≠ l.length - 1 := by omega
    have hpkk : parent k < k := by unfold parent; omega
    have hpkne : parent k ≠ l.length - 1 := by omega
    rw [getT_swapL_other l hk0 hkne, getT_swapL_other l hpk0 hpkne]
    exact h k (by omega) (by omega)

theorem popHeap_perm (l : List AgedTask) : (popHeap l).Perm l := by
  unfold popHeap
  split
  · exact List.Perm.refl l
  · rename_i hgt
    have p1 : (swapL l 0 (l.length - 1)).Perm l := swapL_perm l (by omega) (by omega)
    have p2 := siftDown_perm (swapL l 0 (l.length - 1)) 0 (l.length - 1) (by simp)
    exact p2.trans p1

theorem extractMax_fst (l : List AgedTask) (h : 0 < l.length) :
    (extractMax l).1 = getT l 0 := popHeap_back l h

theorem extractMax_isHeap (l : List AgedTask) (h : IsHeap l) :
    IsHeap (extractMax l).2 := by
  unfold extractMax IsHeap
  intro k hk hk0
  have hlen : (popHeap l).dropLast.length = l.length - 1 := by
    simp [popHeap_length]
  rw [hlen] at hk
  have hklen : k + 1 < (popHeap l).length := by rw [popHeap_length]; omega
  have hpklen : parent k + 1 < (popHeap l).length := by
    have : parent k < k := by unfold parent; omega
    rw [popHeap_length]; omega
  rw [getT_dropLast _ _ hklen, getT_dropLast _ _ hpklen]
  exact popHeap_isHeapRange l h k hk hk0

theorem extractMax_perm (l : List AgedTask) (h : 0 < l.length) :
    ((extractMax l).2 ++ [(extractMax l).1]).Perm l := by
  unfold extractMax
  have hne : popHeap l ≠ [] := by
    intro hc
    have := popHeap_length l
    rw [hc] at this
    simp at this
    omega
  have hback : getT (popHeap l) (l.length - 1) = (popHeap l).getLast hne := by
    have hlt : l.length - 1 < (popHeap l).length := by rw [popHeap_length]; omega
    rw [getT_of_lt _ _ hlt]
    simp only [List.getLast_eq_getElem, popHeap_length]
  rw [hback, List.dropLast_append_getLast hne]
  exact popHeap_perm l

theorem extractMax_mem (l : List AgedTask) (h : 0 < l.length) :
    (extractMax l).1 ∈ l := by
  rw [extractMax_fst l h]
  exact getT_mem l 0 h

theorem extractMax_max (l : List AgedTask) (h : IsHeap l) (hpos : 0 < l.length) :
    ∀ u ∈ l, u.current_priority ≤ (extractMax l).1.current_priority := by
  intro u hu
  rw [extractMax_fst l hpos]
  obtain ⟨k, hk, rfl⟩ := List.getElem_of_mem hu
  have hroot : SubtreeHeap l l.length 0 := (subtreeHeap_zero_iff l l.length).mpr h
  have := hroot.root_dominates k hk (inSubtree_zero k)
  rw [getT_of_lt l k hk] at this
  exact this

theorem makeHeapAux_length (n : Nat) :
    ∀ (i : Nat) (l : List AgedTask), (makeHeapAux n i l).length = l.length := by
  intro i
  induction i with
  | zero => intro l; rfl
  | succ i ih =>
    intro l
    show (makeHeapAux n i (siftDown l i n)).length = l.length
    rw [ih, siftDown_length]

theorem makeHeapAux_perm (n : Nat) :
    ∀ (i : Nat) (l : List AgedTask), n ≤ l.length → (makeHeapAux n i l).Perm l := by
  intro i
  induction i with
  | zero => intro l _; exact List.Perm.refl l
  | succ i ih =>
    intro l hn
    show (makeHeapAux n i (siftDown l i n)).Perm l
    have p1 := ih (siftDown l i n) (by rw [siftDown_length]; exact hn)
    exact p1.trans (siftDown_perm l i n hn)

theorem makeHeapAux_subtreeHeap (n : Nat) :
    ∀ (i : Nat) (l : List AgedTask), n ≤ l.length →
    (∀ j, i ≤ j → SubtreeHeap l n j) → ∀ j, SubtreeHeap (makeHeapAux n i l) n j := by
  intro i
  induction i with
  | zero =>
    intro l _ h j
    exact h j (Nat.zero_le j)
  | succ i ih =>
    intro l hn h j
    show SubtreeHeap (makeHeapAux n i (siftDown l i n)) n j
    apply ih (siftDown l i n) (by rw [siftDown_length]; exact hn)
    have pre : ∀ k, k < n → inSubtree i k → k ≠ i → parent k ≠ i →
        (getT l k).current_priority ≤ (getT l (parent k)).current_priority := by
      intro k hk hik hki hpki
      have hpsub : inSubtree i (parent k) := (inSubtree_step hik hki).2
      have hpge : 2 * i + 1 ≤ parent k := inSubtree_ge hpsub hpki
      have hk0 : 0 < k := by
        have := inSubtree_ge hik hki; omega
      have hpk_lt : parent k < k := by unfold parent; omega
      exact h (parent k) (by omega) k hk (inSubtree_child rfl hk0) (by omega)
    have SH_i : SubtreeHeap (siftDown l i n) n i :=
      siftDown_subtreeHeap l i n hn pre
    intro j' hij'
    by_cases hji : j' = i
    · rw [hji]; exact SH_i
    · have hij1 : i + 1 ≤ j' := by omega
      by_cases hsub : inSubtree i j'
      · exact SH_i.sub hsub
      · intro k hk hj'k hkj'
        have hnik : ¬ inSubtree i k := by
          intro hik
          rcases inSubtree_total k i j' hik hj'k with hc | hc
          · exact hsub hc
          · have := inSubtree_le i j' hc; omega
        have hk0 : 0 < k := by
          rcases Nat.eq_zero_or_pos k with rfl | h0
          · have := inSubtree_le 0 j' hj'k; omega
          · exact h0
        have hnipk : ¬ inSubtree i (parent k) := by
          intro hipk
          exact hnik ((inSubtree_iff _ _).mpr (Or.inr ⟨hk0, hipk⟩))
        rw [siftDown_frame _ _ _ k (Or.inl hnik),
          siftDown_frame _ _ _ (parent k) (Or.inl hnipk)]
        exact h j' (by omega) k hk hj'k hkj'

theorem makeHeap_isHeap (l : List AgedTask) : IsHeap (makeHeap l) := by
  have hbase : ∀ j, l.length / 2 ≤ j → SubtreeHeap l l.length j := by
    intro j hj k hk hjk hkj
    have := inSubtree_ge hjk hkj
    omega
  have hall := makeHeapAux_subtreeHeap l.length (l.length / 2) l (le_refl _) hbase 0
  have hrange : IsHeapRange (makeHeap l) l.length :=
    (subtreeHeap_zero_iff _ _).mp hall
  unfold IsHeap
  unfold makeHeap at *
  rw [makeHeapAux_length]
  exact hrange

theorem makeHeap_perm (l : List AgedTask) : (makeHeap l).Perm l :=
  makeHeapAux_perm l.length (l.length / 2) l (le_refl _)

theorem ageTask_eq_spec (now : Nat) (t : AgedTask)
    (h : t.original_priority ≤ t.current_priority) :
    ageTask now t = specAgeTask now t := by
  unfold ageTask specAgeTask
  by_cases h1 : 0 < ageBonus (now - t.arrival_time)
  · rw [if_pos h1]
  · rw [if_neg h1]
    have hb : ageBonus (now - t.arrival_time) = 0 := by omega
    rw [hb]
    have hcond : ¬ (t.original_priority + ((0 : Nat) : Int) > t.current_priority) := by
      simp only [Nat.cast_zero, add_zero, gt_iff_lt, not_lt]
      exact h
    rw [if_neg hcond]

theorem applyAging_isHeap (now : Nat) (l : List AgedTask) (h : IsHeap l) :
    IsHeap (applyAging now l) := by
  unfold applyAging
  split
  · exact makeHeap_isHeap _
  · rename_i hno
    have hall : ∀ x ∈ l, ageTask now x = x := by
      intro x hx
      by_contra hne
      apply hno
      rw [List.any_eq_true]
      exact ⟨x, hx, by simpa using hne⟩
    have hid : l.map (ageTask now) = l := by
      rw [List.map_congr_left hall]
      simp
    rw [hid]
    exact h

theorem ageTask_mono (now : Nat) (t : AgedTask) :
    t.current_priority ≤ (ageTask now t).current_priority := by
  unfold ageTask
  split
  · split
    · rename_i h2; exact le_of_lt h2
    · exact le_refl _
  · exact le_refl _

theorem ageTask_idem (now : Nat) (t : AgedTask) :
    ageTask now (ageTask now t) = ageTask now t := by
  by_cases h1 : 0 < ageBonus (now - t.arrival_time)
  · by_cases h2 : t.current_priority <
        t.original_priority + (ageBonus (now - t.arrival_time) : Int)
    · have e1 : ageTask now t = { t with current_priority :=
          t.original_priority + (ageBonus (now - t.arrival_time) : Int) } := by
        unfold ageTask; rw [if_pos h1, if_pos h2]
      rw [e1]
      unfold ageTask
      rw [if_pos h1, if_neg (by simp)]
    · have e1 : ageTask now t = t := by unfold ageTask; rw [if_pos h1, if_neg h2]
      simp [e1]
  · have e1 : ageTask now t = t := by unfold ageTask; rw [if_neg h1]
    simp [e1]

theorem ageTask_strict (now : Nat) (t : AgedTask)
    (hd : 2 ≤ now - t.arrival_time) (hfresh : t.current_priority = t.original_priority) :
    t.current_priority < (ageTask now t).current_priority := by
  have hb : 20 ≤ ageBonus (now - t.arrival_time) := by
    unfold ageBonus
    have h20 : 1 ≤ (now - t.arrival_time) / 2 := by omega
    omega
  have h1 : 0 < ageBonus (now - t.arrival_time) := by omega
  have h2 : t.current_priority < t.original_priority +
      (ageBonus (now - t.arrival_time) : Int) := by
    rw [hfresh]
    have hc : (20 : Int) ≤ (ageBonus (now - t.arrival_time) : Int) := by exact_mod_cast hb
    omega
  unfold ageTask
  rw [if_pos h1, if_pos h2]
  exact h2

theorem ageTask_dirty_iff (now : Nat) (t : AgedTask)
    (h : t.original_priority ≤ t.current_priority) :
    ageTask now t ≠ t ↔
      t.original_priority + (ageBonus (now - t.arrival_time) : Int) > t.current_priority := by
  rw [ageTask_eq_spec now t h]
  unfold specAgeTask
  by_cases hc : t.original_priority + (ageBonus (now - t.arrival_time) : Int) >
      t.current_priority
  · rw [if_pos hc]
    constructor
    · intro _; exact hc
    · intro _ heq
      have hproj := congrArg AgedTask.current_priority heq
      have hXX : ({ t with current_priority := t.original_priority +
          (ageBonus (now - t.arrival_time) : Int) } : AgedTask).current_priority =
          t.original_priority + (ageBonus (now - t.arrival_time) : Int) := rfl
      rw [hXX] at hproj
      omega
  · rw [if_neg hc]
    constructor
    · intro hne; exact absurd rfl hne
    · intro hcc; exact absurd hcc hc

/-- C1: for every non-empty store satisfying the heap invariant, the worker's
extraction (`pop_heap` / `back()` / `pop_back`) returns a resident task whose
`current_priority` is greatest in the store and removes exactly that task; and
in the scenario with priorities [1, 1, 10, 10] and a single worker, the two
priority-10 tasks are both extracted before either priority-1 task (the
extracted priority sequence is [10, 10, 1, 1]). -/
theorem C1_extract_max (l : List AgedTask) (hh : IsHeap l) (hne : l ≠ []) :
    ((extractMax l).1 ∈ l ∧
      (∀ u ∈ l, u.current_priority ≤ (extractMax l).1.current_priority) ∧
      ((extractMax l).2 ++ [(extractMax l).1]).Perm l) ∧
    extractSeq demoPool.task_heap 4 = [10, 10, 1, 1] := by
  have hpos : 0 < l.length := List.length_pos.mpr hne
  refine ⟨⟨extractMax_mem l hpos, extractMax_max l hh hpos, extractMax_perm l hpos⟩, ?_⟩
  simp [demoPool, AgingPriorityPool.create, AgingPriorityPool.enqueue, pushHeap, extractSeq,
    extractMax, popHeap, siftDown, siftUp, swapL, getT, maxChild, parent]

/-- Witness for C1 at the concrete two-task heap `demoHeap`. -/
theorem C1_extract_max_witness :
    IsHeap demoHeap ∧ demoHeap ≠ [] ∧
    (((extractMax demoHeap).1 ∈ demoHeap ∧
      (∀ u ∈ demoHeap, u.current_priority ≤ (extractMax demoHeap).1.current_priority) ∧
      ((extractMax demoHeap).2 ++ [(extractMax demoHeap).1]).Perm demoHeap) ∧
     extractSeq demoPool.task_heap 4 = [10, 10, 1, 1]) :=
  ⟨by decide, by decide, C1_extract_max demoHeap (by decide) (by decide)⟩

theorem makeHeap_length (l : List AgedTask) : (makeHeap l).length = l.length := by
  unfold makeHeap
  rw [makeHeapAux_length]

/-- C2: under the store invariant `original_priority ≤ current_priority`
(established at submission, preserved by aging), one monitor tick at time `now`
updates every resident task exactly by the spec rule `specAgeTask` (with
`elapsed = now - arrival_time` and `bonus = floor(elapsed/boost_interval) *
boost_amount`, relabel to `original + bonus` iff that exceeds `current`, in
which case the task is dirty); the full re-heapify (`make_heap`) is performed
iff at least one task is dirty; the pass preserves the store's length and its
multiset of relabelled tasks (removes nothing), executes no payload, and
leaves `stop` untouched. -/
theorem C2_aging_pass (now : Nat) (s : AgingPriorityPool)
    (hinv : ∀ t ∈ s.task_heap, t.original_priority ≤ t.current_priority) :
    (∀ t ∈ s.task_heap, ageTask now t = specAgeTask now t) ∧
    ((s.monitorTick now).task_heap =
      if ∃ t ∈ s.task_heap, specAgeTask now t ≠ t
      then makeHeap (s.task_heap.map (specAgeTask now))
      else s.task_heap.map (specAgeTask now)) ∧
    (s.monitorTick now).task_heap.length = s.task_heap.length ∧
    (s.monitorTick now).task_heap.Perm (s.task_heap.map (specAgeTask now)) ∧
    (s.monitorTick now).executed = s.executed ∧
    (s.monitorTick now).stop = s.stop := by
  have hal : ∀ t ∈ s.task_heap, ageTask now t = specAgeTask now t :=
    fun t ht => ageTask_eq_spec now t (hinv t ht)
  have hmap : s.task_heap.map (ageTask now) = s.task_heap.map (specAgeTask now) :=
    List.map_congr_left hal
  have hcond : (s.task_heap.any (fun t => decide (ageTask now t ≠ t)) = true) ↔
      (∃ t ∈ s.task_heap, specAgeTask now t ≠ t) := by
    rw [List.any_eq_true]
    constructor
    · rintro ⟨t, ht, hd⟩
      refine ⟨t, ht, ?_⟩
      simp only [decide_eq_true_eq] at hd
      rw [← hal t ht]
      exact hd
    · rintro ⟨t, ht, hd⟩
      refine ⟨t, ht, ?_⟩
      simp only [decide_eq_true_eq]
      rw [hal t ht]
      exact hd
  have hheap : (s.monitorTick now).task_heap =
      if ∃ t ∈ s.task_heap, specAgeTask now t ≠ t
      then makeHeap (s.task_heap.map (specAgeTask now))
      else s.task_heap.map (specAgeTask now) := by
    show applyAging now s.task_heap = _
    unfold applyAging
    by_cases hd : ∃ t ∈ s.task_heap, specAgeTask now t ≠ t
    · rw [if_pos (hcond.mpr hd), if_pos hd, hmap]
    · rw [if_neg (fun hc => hd (hcond.mp hc)), if_neg hd, hmap]
  refine ⟨hal, hheap, ?_, ?_, rfl, rfl⟩
  · rw [hheap]
    split
    · rw [makeHeap_length, List.length_map]
    · rw [List.length_map]
  · rw [hheap]
    split
    · exact makeHeap_perm _
    · exact List.Perm.refl _

/-- Witness for C2 at the concrete pool `demoPoolState`, time 4 s. -/
theorem C2_aging_pass_witness :
    (∀ t ∈ demoPoolState.task_heap, t.original_priority ≤ t.current_priority) ∧
    ((∀ t ∈ demoPoolState.task_heap, ageTask 4 t = specAgeTask 4 t) ∧
     ((demoPoolState.monitorTick 4).task_heap =
       if ∃ t ∈ demoPoolState.task_heap, specAgeTask 4 t ≠ t
       then makeHeap (demoPoolState.task_heap.map (specAgeTask 4))
       else demoPoolState.task_heap.map (specAgeTask 4)) ∧
     (demoPoolState.monitorTick 4).task_heap.length = demoPoolState.task_heap.length ∧
     (demoPoolState.monitorTick 4).task_heap.Perm
       (demoPoolState.task_heap.map (specAgeTask 4)) ∧
     (demoPoolState.monitorTick 4).executed = demoPoolState.executed ∧
     (demoPoolState.monitorTick 4).stop = demoPoolState.stop) :=
  ⟨by decide, C2_aging_pass 4 demoPoolState (by decide)⟩

theorem applyOp_isHeap (l : List AgedTask) (h : IsHeap l) (op : HeapOp) :
    IsHeap (applyOp l op) := by
  cases op with
  | insert t => exact pushHeap_isHeap l t h
  | extract =>
    show IsHeap (if l.isEmpty then l else (extractMax l).2)
    split
    · exact h
    · exact extractMax_isHeap l h
  | reheap now => exact applyAging_isHeap now l h

theorem foldl_applyOp_isHeap (ops : List HeapOp) :
    ∀ l : List AgedTask, IsHeap l → IsHeap (ops.foldl applyOp l) := by
  induction ops with
  | nil => intro l h; exact h
  | cons op rest ih =>
    intro l h
    exact ih (applyOp l op) (applyOp_isHeap l h op)

/-- C3: for every sequence of insert (`push_back`+`push_heap`), extract
(`pop_heap`+`pop_back`) and aging-reheapify operations starting from the empty
store, the store satisfies the max-heap property on `current_priority` after
each completed operation (every prefix of a sequence is itself a sequence, so
this covers each intermediate state). -/
theorem C3_heap_invariant (ops : List HeapOp) : IsHeap (runOps ops) := by
  unfold runOps
  apply foldl_applyOp_isHeap
  intro k hk hk0
  simp at hk

/-- C4 counterexample: the claimed "strictly greater once d ≥ boost_interval"
fails on the code.  The priority-20 task submitted at time 0 and aged at 2 s
holds `current_priority = 40` (a reachable state, first conjunct); at time
3 s it has been resident d = 3 ≥ 2 = boost_interval, yet the aging pass leaves
`current_priority` at 40 (the bonus is still 20 and 20 + 20 = 40 does not
exceed 40): not strictly greater. -/
theorem C4_counterexample :
    ageTask 2 starvedRewardTask = agedRewardTask ∧
    2 ≤ 3 - agedRewardTask.arrival_time ∧
    ageTask 3 agedRewardTask = agedRewardTask ∧
    ¬ (agedRewardTask.current_priority < (ageTask 3 agedRewardTask).current_priority) := by
  decide

/-- C4 (amended): aging is monotone — a pass never lowers a task's
`current_priority` for any wait duration; re-applying the pass with no time
elapsed changes nothing (idempotence); and the increase is strict once
`now - arrival_time ≥ boost_interval = 2` provided the task has not already
been boosted (its `current_priority` still equals `original_priority`). -/
theorem C4_aging_monotone (now : Nat) (t : AgedTask) :
    (t.current_priority ≤ (ageTask now t).current_priority) ∧
    (ageTask now (ageTask now t) = ageTask now t) ∧
    (2 ≤ now - t.arrival_time → t.current_priority = t.original_priority →
      t.current_priority < (ageTask now t).current_priority) :=
  ⟨ageTask_mono now t, ageTask_idem now t, ageTask_strict now t⟩

/-- Witness for C4 (amended) on the fresh priority-20 task at 4 s. -/
theorem C4_aging_monotone_witness :
    (starvedRewardTask.current_priority ≤ (ageTask 4 starvedRewardTask).current_priority) ∧
    (ageTask 4 (ageTask 4 starvedRewardTask) = ageTask 4 starvedRewardTask) ∧
    starvedRewardTask.current_priority < (ageTask 4 starvedRewardTask).current_priority :=
  ⟨(C4_aging_monotone 4 starvedRewardTask).1, (C4_aging_monotone 4 starvedRewardTask).2.1,
   (C4_aging_monotone 4 starvedRewardTask).2.2 (by decide) (by decide)⟩

/-- C5 counterexample: with `stop` set and a task still resident, the worker
does NOT terminate and the resident task is NOT dropped: the next `workerLoop`
iteration extracts it and runs its payload (`workerLoop` returns only when
`stop && task_heap.empty()`). -/
theorem C5_counterexample :
    stoppedPoolOneTask.stop = true ∧
    stoppedPoolOneTask.task_heap ≠ [] ∧
    AgingPriorityPool.workerStep stoppedPoolOneTask =
      WorkerOutcome.popped residentTask
        { task_heap := [], stop := true, executed := ["RESIDENT"] } := by
  decide

theorem runWorker_drain : ∀ (n : Nat) (s : AgingPriorityPool), s.stop = true →
    IsHeap s.task_heap → s.task_heap.length = n →
    (AgingPriorityPool.runWorker s (n + 1)).2 = true ∧
    (AgingPriorityPool.runWorker s (n + 1)).1.task_heap = [] ∧
    (AgingPriorityPool.runWorker s (n + 1)).1.stop = true ∧
    (AgingPriorityPool.runWorker s (n + 1)).1.executed.Perm
      (s.executed ++ (s.task_heap.filter (fun t => t.func)).map AgedTask.task_name) := by
  intro n
  induction n with
  | zero =>
    intro s hstop hheap hlen
    have hemp : s.task_heap = [] := by
      cases hht : s.task_heap with
      | nil => rfl
      | cons a as => rw [hht] at hlen; simp at hlen
    have hws : s.workerStep = WorkerOutcome.exited := by
      unfold AgingPriorityPool.workerStep
      rw [hstop, hemp]
      rfl
    rw [AgingPriorityPool.runWorker, hws]
    exact ⟨rfl, hemp, hstop, by simp [hemp]⟩
  | succ n ih =>
    intro s hstop hheap hlen
    have hne : s.task_heap ≠ [] := by
      intro hc; rw [hc] at hlen; simp at hlen
    have hemp : s.task_heap.isEmpty = false := by
      cases hht : s.task_heap with
      | nil => exact absurd hht hne
      | cons a as => rfl
    have hws : s.workerStep = WorkerOutcome.popped (extractMax s.task_heap).1
        { s with task_heap := (extractMax s.task_heap).2,
                 executed := if (extractMax s.task_heap).1.func
                   then s.executed ++ [(extractMax s.task_heap).1.task_name]
                   else s.executed } := by
      unfold AgingPriorityPool.workerStep
      rw [hstop, hemp]
      rfl
    have hlen' : (extractMax s.task_heap).2.length = n := by
      unfold extractMax
      rw [List.length_dropLast, popHeap_length]
      omega
    have hheap' : IsHeap (extractMax s.task_heap).2 := extractMax_isHeap _ hheap
    have IH := ih
      { s with task_heap := (extractMax s.task_heap).2,
               executed := if (extractMax s.task_heap).1.func
                 then s.executed ++ [(extractMax s.task_heap).1.task_name]
                 else s.executed }
      hstop hheap' hlen'
    have hstep : AgingPriorityPool.runWorker s (n + 1 + 1) =
        AgingPriorityPool.runWorker
          { s with task_heap := (extractMax s.task_heap).2,
                   executed := if (extractMax s.task_heap).1.func
                     then s.executed ++ [(extractMax s.task_heap).1.task_name]
                     else s.executed } (n + 1) := by
      rw [AgingPriorityPool.runWorker, hws]
    rw [hstep]
    refine ⟨IH.1, IH.2.1, IH.2.2.1, ?_⟩
    refine IH.2.2.2.trans ?_
    show (if (extractMax s.task_heap).1.func
        then s.executed ++ [(extractMax s.task_heap).1.task_name]
        else s.executed) ++
        (((extractMax s.task_heap).2.filter (fun t => t.func)).map AgedTask.task_name)
      |>.Perm (s.executed ++ ((s.task_heap.filter (fun t => t.func)).map AgedTask.task_name))
    have hx : ((extractMax s.task_heap).2 ++ [(extractMax s.task_heap).1]).Perm s.task_heap :=
      extractMax_perm _ (by omega)
    have h1 := (hx.filter (fun t => t.func)).map AgedTask.task_name
    rw [List.filter_append, List.map_append] at h1
    by_cases hf : (extractMax s.task_heap).1.func
    · rw [if_pos hf]
      have h2 : (([(extractMax s.task_heap).1]).filter (fun t => t.func)).map
          AgedTask.task_name = [(extractMax s.task_heap).1.task_name] := by
        simp [List.filter_cons, hf]
      rw [h2] at h1
      have p1 : ((s.executed ++ [(extractMax s.task_heap).1.task_name]) ++
          (((extractMax s.task_heap).2.filter (fun t => t.func)).map AgedTask.task_name)).Perm
          (s.executed ++
            ((((extractMax s.task_heap).2.filter (fun t => t.func)).map AgedTask.task_name) ++
             [(extractMax s.task_heap).1.task_name])) := by
        rw [List.append_assoc]
        exact List.Perm.append_left s.executed (List.perm_append_comm)
      exact p1.trans (List.Perm.append_left s.executed h1)
    · rw [if_neg hf]
      have h2 : (([(extractMax s.task_heap).1]).filter (fun t => t.func)).map
          AgedTask.task_name = [] := by
        simp [List.filter_cons, hf]
      rw [h2, List.append_nil] at h1
      exact List.Perm.append_left s.executed h1

/-- C5 (amended): after `stop` is set, workers do not drop resident tasks:
they keep extracting until the store is empty and only then terminate, so
every task resident at shutdown is extracted, and the payload of every
resident task with a non-empty callable is executed — shutdown drains the
store instead of discarding it. -/
theorem C5_shutdown_drains (s : AgingPriorityPool) (hstop : s.stop = true)
    (hheap : IsHeap s.task_heap) :
    (AgingPriorityPool.runWorker s (s.task_heap.length + 1)).2 = true ∧
    (AgingPriorityPool.runWorker s (s.task_heap.length + 1)).1.task_heap = [] ∧
    (AgingPriorityPool.runWorker s (s.task_heap.length + 1)).1.stop = true ∧
    (AgingPriorityPool.runWorker s (s.task_heap.length + 1)).1.executed.Perm
      (s.executed ++ (s.task_heap.filter (fun t => t.func)).map AgedTask.task_name) :=
  runWorker_drain s.task_heap.length s hstop hheap rfl

/-- Witness for C5 (amended) at the one-task stopped pool. -/
theorem C5_shutdown_drains_witness :
    stoppedPoolOneTask.stop = true ∧ IsHeap stoppedPoolOneTask.task_heap ∧
    ((AgingPriorityPool.runWorker stoppedPoolOneTask
        (stoppedPoolOneTask.task_heap.length + 1)).2 = true ∧
     (AgingPriorityPool.runWorker stoppedPoolOneTask
        (stoppedPoolOneTask.task_heap.length + 1)).1.task_heap = [] ∧
     (AgingPriorityPool.runWorker stoppedPoolOneTask
        (stoppedPoolOneTask.task_heap.length + 1)).1.stop = true ∧
     (AgingPriorityPool.runWorker stoppedPoolOneTask
        (stoppedPoolOneTask.task_heap.length + 1)).1.executed.Perm
       (stoppedPoolOneTask.executed ++
         (stoppedPoolOneTask.task_heap.filter (fun t => t.func)).map AgedTask.task_name)) :=
  ⟨by decide, by decide, C5_shutdown_drains stoppedPoolOneTask (by decide) (by decide)⟩

/-- C6 counterexample: `enqueue` on a pool whose `stop` flag is set does not
reject the submission — the task is inserted into the heap store (the store
grows from empty to the one-task list). -/
theorem C6_counterexample :
    stoppedEmptyPool.stop = true ∧
    (stoppedEmptyPool.enqueue 50 "LATE_TASK" true 9).task_heap = [lateTask] ∧
    (stoppedEmptyPool.enqueue 50 "LATE_TASK" true 9).task_heap.length =
      stoppedEmptyPool.task_heap.length + 1 := by
  refine ⟨rfl, ?_, ?_⟩
  · simp [stoppedEmptyPool, lateTask, AgingPriorityPool.enqueue, pushHeap, siftUp]
  · show (pushHeap _).length = _
    rw [pushHeap_length]
    rfl

/-- C6 (amended): submission after shutdown is not rejected: `enqueue` never
consults the `stop` flag, so a task submitted after `stop` is set is inserted
into the heap store exactly as before shutdown (store grows by the new
record, `stop` stays set). -/
theorem C6_submit_after_shutdown (s : AgingPriorityPool) (p : Int) (nm : String)
    (f : Bool) (now : Nat) (hstop : s.stop = true) :
    (s.enqueue p nm f now).stop = true ∧
    (s.enqueue p nm f now).task_heap.length = s.task_heap.length + 1 ∧
    (s.enqueue p nm f now).task_heap.Perm (s.task_heap ++ [mkAgedTask p nm f now]) := by
  refine ⟨hstop, ?_, ?_⟩
  · show (pushHeap (s.task_heap ++ [_])).length = _
    rw [pushHeap_length]
    simp
  · show (pushHeap (s.task_heap ++ [_])).Perm _
    exact pushHeap_perm _ (by simp)

/-- Witness for C6 (amended) at the stopped empty pool. -/
theorem C6_submit_after_shutdown_witness :
    stoppedEmptyPool.stop = true ∧
    ((stoppedEmptyPool.enqueue 50 "LATE_TASK" true 9).stop = true ∧
     (stoppedEmptyPool.enqueue 50 "LATE_TASK" true 9).task_heap.length =
       stoppedEmptyPool.task_heap.length + 1 ∧
     (stoppedEmptyPool.enqueue 50 "LATE_TASK" true 9).task_heap.Perm
       (stoppedEmptyPool.task_heap ++ [mkAgedTask 50 "LATE_TASK" true 9])) :=
  ⟨by decide, C6_submit_after_shutdown stoppedEmptyPool 50 "LATE_TASK" true 9 (by decide)⟩

/-- C7 counterexample: constructing the pool with `worker_count = 0` is not
rejected with an error: the constructor performs no validation and silently
yields a running pool (`stop = false`, empty store) with zero workers. -/
theorem C7_counterexample :
    AgingPriorityPool.create 0 =
      ({ task_heap := [], stop := false, executed := [] }, 0) := rfl

/-- C7 (amended): the constructor validates nothing: for every worker count —
including 0 — it produces the initial pool state (empty heap, `stop = false`)
and spawns exactly that many workers, so `worker_count = 0` silently yields a
pool with no workers. -/
theorem C7_create_unvalidated (threads : Nat) :
    (AgingPriorityPool.create threads).1.task_heap = [] ∧
    (AgingPriorityPool.create threads).1.stop = false ∧
    (AgingPriorityPool.create threads).2 = threads :=
  ⟨rfl, rfl, rfl⟩

/-- C8: in `monitorLoop` the `stop` flag is checked (the `while (!stop)` test)
before each sleep, and once the monitor observes `stop = true` it exits
without another aging pass: the trace is exactly one sleep–age–notify block
per `false` observation and contains nothing after the `true` observation; in
particular the number of aging passes equals the number of `false`
observations. -/
theorem C8_monitor_stop (pre post : List Bool) (hpre : ∀ b ∈ pre, b = false) :
    monitorRun (pre ++ true :: post) =
      (List.replicate pre.length [MEvent.sleep, MEvent.age, MEvent.notifyAll]).flatten ∧
    (monitorRun (pre ++ true :: post)).count MEvent.age = pre.length := by
  induction pre with
  | nil =>
    constructor
    · show monitorRun (true :: post) = _
      rw [monitorRun]
      simp
    · show (monitorRun (true :: post)).count MEvent.age = 0
      rw [monitorRun]
      simp
  | cons b pre ih =>
    have hb : b = false := hpre b (by simp)
    have hpre' : ∀ x ∈ pre, x = false := fun x hx => hpre x (by simp [hx])
    obtain ⟨ih1, ih2⟩ := ih hpre'
    subst hb
    constructor
    · show monitorRun (false :: (pre ++ true :: post)) = _
      rw [monitorRun]
      simp [ih1, List.replicate_succ]
    · show (monitorRun (false :: (pre ++ true :: post))).count MEvent.age = pre.length + 1
      rw [monitorRun]
      simp [List.count_cons, ih2]

/-- Witness for C8: one `false` observation, then `true` (with a further
observation after it that must be ignored). -/
theorem C8_monitor_stop_witness :
    (∀ b ∈ [false], b = false) ∧
    (monitorRun ([false] ++ true :: [false]) =
      (List.replicate ([false] : List Bool).length
        [MEvent.sleep, MEvent.age, MEvent.notifyAll]).flatten ∧
     (monitorRun ([false] ++ true :: [false])).count MEvent.age =
       ([false] : List Bool).length) :=
  ⟨by decide, C8_monitor_stop [false] [false] (by decide)⟩

/-- C9: with the source constants (boost 20 per full 2 s of waiting), the
priority-20 task resident for 4 s is boosted by the aging pass to
`current_priority = 20 + floor(4/2)·20 = 60 > 50`; and the integer division
truncates (floor), so any elapsed time strictly below the boost interval
yields bonus 0. -/
theorem C9_boost_arithmetic (e : Nat) (he : e < 2) :
    (ageTask 4 starvedRewardTask).current_priority = 20 + (4 / 2) * 20 ∧
    (ageTask 4 starvedRewardTask).current_priority = 60 ∧
    (50 : Int) < (ageTask 4 starvedRewardTask).current_priority ∧
    ageBonus e = 0 := by
  refine ⟨by decide, by decide, by decide, ?_⟩
  unfold ageBonus
  omega

/-- Witness for C9 at elapsed time 1 s. -/
theorem C9_boost_arithmetic_witness :
    (1 < 2) ∧
    ((ageTask 4 starvedRewardTask).current_priority = 20 + (4 / 2) * 20 ∧
     (ageTask 4 starvedRewardTask).current_priority = 60 ∧
     (50 : Int) < (ageTask 4 starvedRewardTask).current_priority ∧
     ageBonus 1 = 0) :=
  ⟨by decide, C9_boost_arithmetic 1 (by decide)⟩

/-- C10: a task with an empty callable is accepted by `enqueue` like any other
(the record is inserted into the store); when a worker later extracts it, the
task is removed from the store but `if (activeTask.func)` skips the
invocation with no error: the executed log is unchanged, the remaining heap
is the usual extraction remainder and still a heap, and the rest of the pool
state is untouched. -/
theorem C10_null_payload (s : AgingPriorityPool) (p : Int) (nm : String) (now : Nat)
    (hne : s.task_heap ≠ []) (hh : IsHeap s.task_heap)
    (hfunc : (extractMax s.task_heap).1.func = false) :
    ((s.enqueue p nm false now).task_heap.Perm
      (s.task_heap ++ [mkAgedTask p nm false now])) ∧
    (s.workerStep = WorkerOutcome.popped (extractMax s.task_heap).1
      { s with task_heap := (extractMax s.task_heap).2, executed := s.executed }) ∧
    IsHeap (extractMax s.task_heap).2 := by
  refine ⟨?_, ?_, extractMax_isHeap _ hh⟩
  · show (pushHeap (s.task_heap ++ [_])).Perm _
    exact pushHeap_perm _ (by simp)
  · have hemp : s.task_heap.isEmpty = false := by
      cases hht : s.task_heap with
      | nil => exact absurd hht hne
      | cons a as => rfl
    unfold AgingPriorityPool.workerStep
    rw [hemp, hfunc]
    simp

/-- Witness for C10 at the one-task pool with empty payload. -/
theorem C10_null_payload_witness :
    nullPayloadPool.task_heap ≠ [] ∧ IsHeap nullPayloadPool.task_heap ∧
    (extractMax nullPayloadPool.task_heap).1.func = false ∧
    (((nullPayloadPool.enqueue 3 "X" false 5).task_heap.Perm
       (nullPayloadPool.task_heap ++ [mkAgedTask 3 "X" false 5])) ∧
     (nullPayloadPool.workerStep =
       WorkerOutcome.popped (extractMax nullPayloadPool.task_heap).1
         { nullPayloadPool with task_heap := (extractMax nullPayloadPool.task_heap).2, executed := nullPayloadPool.executed }) ∧
     IsHeap (extractMax nullPayloadPool.task_heap).2) :=
  ⟨by decide, by decide, by decide,
   C10_null_payload nullPayloadPool 3 "X" 5 (by decide) (by decide) (by decide)⟩
